import Mathlib

/-!
Verification of the image-deduplication core (`src/deduplicate.rs`).

The Rust source is embedded shallowly:
* an `ImageHash` (external crate `image_hasher::ImageHash`) is a bit vector,
  modelled as `List Bool`; its `dist` method is the Hamming distance;
* `ImageInfo { path, hash }` and `DuplicatesGroup { items }` mirror the
  structs used by `deduplicate.rs` (their declarations live in `models.rs`,
  but every field used by the core is visible at the use sites);
* `find_duplicates` is the anchor-based single-pass grouping loop; the Rust
  `HashSet<PathBuf>` of processed paths becomes a `List String` queried by
  membership; the outer `for (i, image)` / inner `images.iter().skip(i + 1)`
  loops become structural recursion (`findDupAux` / `scanCandidates`);
* the scanner `get_image_hashes` and the report writer `save_results` are
  modelled over an abstract directory / storage state, with the external
  collaborators (`image::open`, serde serialization, `fs::write`) given as
  parameters describing their outcome at the boundary.
-/

/-- A perceptual fingerprint: a fixed-length bit vector
(`image_hasher::ImageHash` at the Rust boundary). -/
abbrev ImageHash := List Bool

/-- `ImageHash::dist`: Hamming distance, the number of differing bit
positions between two equal-length bit vectors. -/
def ImageHash.dist (a b : ImageHash) : Nat :=
  (List.zipWith (fun x y => x != y) a b).count true

/-- `ImageInfo { path, hash }` from `models.rs` as used by `deduplicate.rs`. -/
structure ImageInfo where
  path : String
  hash : ImageHash
deriving DecidableEq, Repr

/-- `DuplicatesGroup { items }` from `models.rs` as used by `deduplicate.rs`. -/
structure DuplicatesGroup where
  items : List ImageInfo
deriving DecidableEq, Repr

/-- The inner loop of `find_duplicates`: the anchor `image` scans the
remaining records `rest`; a candidate already in `processed` is skipped;
a candidate at Hamming distance strictly below the threshold is appended
to the current group and its path inserted into `processed`.  Returns the
matched candidates in scan order together with the final processed set. -/
def scanCandidates (image : ImageInfo) : List ImageInfo → Nat → List String →
    List ImageInfo × List String
  | [], _, processed => ([], processed)
  | other :: rest, t, processed =>
    if other.path ∈ processed then
      scanCandidates image rest t processed
    else if image.hash.dist other.hash < t then
      (other :: (scanCandidates image rest t (other.path :: processed)).1,
        (scanCandidates image rest t (other.path :: processed)).2)
    else
      scanCandidates image rest t processed

/-- The outer loop of `find_duplicates`: each record in turn is either
skipped (already processed) or becomes the anchor of a candidate scan over
the records after it; the accumulated group `image :: matches` is emitted
iff its length exceeds 1, in which case the anchor's path also enters the
processed set. -/
def findDupAux : List ImageInfo → Nat → List String → List DuplicatesGroup
  | [], _, _ => []
  | image :: rest, t, processed =>
    if image.path ∈ processed then
      findDupAux rest t processed
    else if (image :: (scanCandidates image rest t processed).1).length > 1 then
      ⟨image :: (scanCandidates image rest t processed).1⟩ ::
        findDupAux rest t (image.path :: (scanCandidates image rest t processed).2)
    else
      findDupAux rest t (scanCandidates image rest t processed).2

/-- `find_duplicates(images, duplicate_threshold)` from `deduplicate.rs`. -/
def find_duplicates (images : List ImageInfo) (duplicate_threshold : Nat) :
    List DuplicatesGroup :=
  findDupAux images duplicate_threshold []

/-- Total number of records assigned to some group. -/
def totalAssigned (groups : List DuplicatesGroup) : Nat :=
  (groups.map (fun g => g.items.length)).sum

/- ### Instrumented variant recording the execution order of the loops -/

/-- Observable events of one `find_duplicates` run, in execution order:
`anchorVisit q d` when the record with path `q` reaches the anchor stage
(`d` = whether its accumulated group was discarded), `candidateExam a x`
when the anchor with path `a` iterates over the candidate with path `x`
(including candidates skipped by the processed check). -/
inductive Event where
  | anchorVisit (path : String) (discarded : Bool)
  | candidateExam (anchorPath : String) (path : String)
deriving DecidableEq, Repr

/-- `scanCandidates` instrumented with the trace of candidate
examinations; returns (matches, processed set, events). -/
def scanCandidatesT (image : ImageInfo) : List ImageInfo → Nat → List String →
    List ImageInfo × List String × List Event
  | [], _, processed => ([], processed, [])
  | o :: rest, t, processed =>
    if o.path ∈ processed then
      ((scanCandidatesT image rest t processed).1,
        (scanCandidatesT image rest t processed).2.1,
        Event.candidateExam image.path o.path ::
          (scanCandidatesT image rest t processed).2.2)
    else if image.hash.dist o.hash < t then
      (o :: (scanCandidatesT image rest t (o.path :: processed)).1,
        (scanCandidatesT image rest t (o.path :: processed)).2.1,
        Event.candidateExam image.path o.path ::
          (scanCandidatesT image rest t (o.path :: processed)).2.2)
    else
      ((scanCandidatesT image rest t processed).1,
        (scanCandidatesT image rest t processed).2.1,
        Event.candidateExam image.path o.path ::
          (scanCandidatesT image rest t processed).2.2)

/-- `findDupAux` instrumented with the run's event trace; a record skipped
by the processed check never reaches the anchor stage and emits no event,
exactly as the Rust `continue` does no further work on it. -/
def findDupAuxT : List ImageInfo → Nat → List String →
    List DuplicatesGroup × List Event
  | [], _, _ => ([], [])
  | image :: rest, t, processed =>
    if image.path ∈ processed then
      findDupAuxT rest t processed
    else if (image :: (scanCandidatesT image rest t processed).1).length > 1 then
      (⟨image :: (scanCandidatesT image rest t processed).1⟩ ::
          (findDupAuxT rest t
            (image.path :: (scanCandidatesT image rest t processed).2.1)).1,
        Event.anchorVisit image.path false ::
          (scanCandidatesT image rest t processed).2.2 ++
          (findDupAuxT rest t
            (image.path :: (scanCandidatesT image rest t processed).2.1)).2)
    else
      ((findDupAuxT rest t (scanCandidatesT image rest t processed).2.1).1,
        Event.anchorVisit image.path true ::
          (scanCandidatesT image rest t processed).2.2 ++
          (findDupAuxT rest t (scanCandidatesT image rest t processed).2.1).2)

/-- `find_duplicates` with its event trace. -/
def find_duplicatesT (images : List ImageInfo) (duplicate_threshold : Nat) :
    List DuplicatesGroup × List Event :=
  findDupAuxT images duplicate_threshold []

/- ### Scanner model (`get_image_hashes`) -/

/-- One directory entry as `get_image_hashes` consumes it: its path, and
the outcome of `image::open` on it (`some img` when the entry decodes to
an image, `none` otherwise).  The image type `α` stays abstract; the
hasher is the external Extractor consuming it. -/
structure DirEntry (α : Type) where
  path : String
  decoded : Option α
deriving DecidableEq, Repr

/-- The input directory as `get_image_hashes` observes it: whether the
path is a directory, and its immediate entries. -/
structure FileSystemDir (α : Type) where
  isDir : Bool
  entries : List (DirEntry α)
deriving DecidableEq, Repr

/-- Modelled from the spec: `AppError` is declared in `errors.rs`, which is
not part of the sources; its variants follow the spec's error taxonomy
(§7): invalid directory, storage read/write failure, serialization
failure.  `InvalidDirectory(path)` is the variant constructed directly by
`get_image_hashes`. -/
inductive AppError where
  | invalidDirectory (path : String)
  | storageIO
  | serialization
deriving DecidableEq, Repr

/-- `get_image_hashes(directory, hasher)`: fail with `InvalidDirectory`
unless the path is a directory, otherwise hash every entry that decodes as
an image and silently drop the rest.  The trailing `filterMap` is the Rust
`par_iter().filter_map(...)` over the entries. -/
def get_image_hashes {α : Type} (directory : FileSystemDir α)
    (dirPath : String) (hasher : α → ImageHash) :
    Except AppError (List ImageInfo) :=
  if !directory.isDir then
    Except.error (AppError.invalidDirectory dirPath)
  else
    Except.ok (directory.entries.filterMap (fun e =>
      match e.decoded with
      | some img => some (ImageInfo.mk e.path (hasher img))
      | none => none))

/- ### Report writer model (`save_results`) -/

/-- `DeduplicationReport` as built by `DeduplicationReport::new(dir,
duplicates, threshold)` in `run` (declared in `models.rs`, not part of the
sources; fields follow the spec's data model §3). -/
structure DeduplicationReport where
  directory : String
  duplicates : List DuplicatesGroup
  threshold : Nat
deriving DecidableEq, Repr

/-- Persistent storage at the `fs::write` boundary: an association of file
paths to their complete contents. -/
abbrev Storage := List (String × String)

/-- The effect of a successful `fs::write(path, contents)`: the file at
`path` holds exactly `contents`. -/
def fsWrite (store : Storage) (path contents : String) : Storage :=
  (path, contents) :: store.filter (fun kv => kv.1 != path)

/-- `save_results(report, path)`: serialize the whole report first
(`serde_json::to_string_pretty`, whose outcome the `serialize` parameter
models), then hand the complete string to `fs::write` (whose success the
`writeOk` parameter models; the external write either persists the whole
contents or fails leaving storage as it was).  Returns the call's result,
the storage afterwards, and whether a write was attempted at all. -/
def save_results (serialize : DeduplicationReport → Option String)
    (report : DeduplicationReport) (writeOk : Bool) (store : Storage)
    (path : String) : Except AppError Unit × Storage × Bool :=
  match serialize report with
  | none => (Except.error AppError.serialization, store, false)
  | some contents =>
    if writeOk then
      (Except.ok (), fsWrite store path contents, true)
    else
      (Except.error AppError.storageIO, store, true)

/- ### Concrete records used by witnesses and counterexamples -/

/-- Witness record: path `"w1.png"`, all-zero 4-bit fingerprint. -/
def w1 : ImageInfo := ⟨"w1.png", [false, false, false, false]⟩

/-- Witness record: path `"w2.png"`, fingerprint equal to `w1`'s. -/
def w2 : ImageInfo := ⟨"w2.png", [false, false, false, false]⟩

/-- Record `mA`: all-zero 4-bit fingerprint. -/
def mA : ImageInfo := ⟨"a.png", [false, false, false, false]⟩

/-- Record `mB`: one bit away from `mA`. -/
def mB : ImageInfo := ⟨"b.png", [false, false, false, true]⟩

/-- Record `mC`: two bits away from `mA`, one from `mD`. -/
def mC : ImageInfo := ⟨"c.png", [false, false, true, true]⟩

/-- Record `mD`: three bits away from `mA`, one from `mC`. -/
def mD : ImageInfo := ⟨"d.png", [false, true, true, true]⟩

/-- Witness record for C5: all-zero 20-bit fingerprint. -/
def cr1 : ImageInfo := ⟨"cr1.png", List.replicate 20 false⟩

/-- Witness record for C5: first ten bits set. -/
def cr2 : ImageInfo := ⟨"cr2.png", List.replicate 10 true ++ List.replicate 10 false⟩

/-- Witness record for C5: fingerprint identical to `cr1`'s. -/
def cr3 : ImageInfo := ⟨"cr3.png", List.replicate 20 false⟩

/-- Witness record for C5: last ten bits set. -/
def cr4 : ImageInfo := ⟨"cr4.png", List.replicate 10 false ++ List.replicate 10 true⟩

/-- Witness record for C5: all twenty bits set. -/
def cr5 : ImageInfo := ⟨"cr5.png", List.replicate 20 true⟩

/- ### Basic lemmas about the candidate scan -/

/-- Combined specification of one anchor scan: every match is within the
threshold, the matches are a sublist of the scanned records, no match was
already processed, and the returned processed set is exactly the old one
plus the matched paths. -/
theorem scanCandidates_spec (image : ImageInfo) :
    ∀ (rest : List ImageInfo) (t : Nat) (p : List String)
      (ms : List ImageInfo) (p' : List String),
      scanCandidates image rest t p = (ms, p') →
      (∀ m ∈ ms, image.hash.dist m.hash < t) ∧
      List.Sublist ms rest ∧
      (∀ m ∈ ms, m.path ∉ p) ∧
      (∀ x, x ∈ p' ↔ x ∈ p ∨ x ∈ ms.map (fun m => m.path)) := by
  intro rest
  induction rest with
  | nil =>
    intro t p ms p' h
    simp only [scanCandidates, Prod.mk.injEq] at h
    obtain ⟨h1, h2⟩ := h
    subst h1; subst h2
    refine ⟨by simp, List.Sublist.refl _, by simp, by simp⟩
  | cons o rest ih =>
    intro t p ms p' h
    simp only [scanCandidates] at h
    split at h
    · rename_i hop
      obtain ⟨hd, hs, hp, hiff⟩ := ih t p ms p' h
      exact ⟨hd, hs.cons o, hp, hiff⟩
    · rename_i hop
      split at h
      · rename_i hdist
        simp only [Prod.mk.injEq] at h
        obtain ⟨h1, h2⟩ := h
        obtain ⟨hd, hs, hp, hiff⟩ :=
          ih t (o.path :: p) (scanCandidates image rest t (o.path :: p)).1
            (scanCandidates image rest t (o.path :: p)).2 rfl
        subst h1; subst h2
        refine ⟨?_, hs.cons₂ o, ?_, ?_⟩
        · intro m hm
          rcases List.mem_cons.mp hm with h | h
          · subst h; exact hdist
          · exact hd m h
        · intro m hm
          rcases List.mem_cons.mp hm with h | h
          · subst h; exact hop
          · intro hmp
            exact hp m h (List.mem_cons_of_mem _ hmp)
        · intro x
          rw [hiff x]
          simp only [List.map_cons, List.mem_cons]
          tauto
      · rename_i hdist
        obtain ⟨hd, hs, hp, hiff⟩ := ih t p ms p' h
        exact ⟨hd, hs.cons o, hp, hiff⟩

/-- If no candidate is within the threshold of the anchor, the scan returns
no matches and leaves the processed set unchanged. -/
theorem scanCandidates_none (image : ImageInfo) :
    ∀ (rest : List ImageInfo) (t : Nat) (p : List String),
      (∀ x ∈ rest, t ≤ image.hash.dist x.hash) →
      scanCandidates image rest t p = ([], p) := by
  intro rest
  induction rest with
  | nil => intro t p _; simp [scanCandidates]
  | cons o rest ih =>
    intro t p h
    simp only [scanCandidates]
    split
    · exact ih t p (fun x hx => h x (List.mem_cons_of_mem _ hx))
    · rw [if_neg (Nat.not_lt.mpr (h o (List.mem_cons_self _ _)))]
      exact ih t p (fun x hx => h x (List.mem_cons_of_mem _ hx))

/-- If all later records are at distance at least `t` from each earlier one,
no group is ever emitted. -/
theorem findDupAux_none (t : Nat) :
    ∀ (l : List ImageInfo),
      l.Pairwise (fun a b => t ≤ a.hash.dist b.hash) →
      ∀ p, findDupAux l t p = [] := by
  intro l
  induction l with
  | nil => intro _ p; simp [findDupAux]
  | cons x rest ih =>
    intro hpw p
    rcases List.pairwise_cons.mp hpw with ⟨hx, hrest⟩
    simp only [findDupAux]
    split
    · exact ih hrest p
    · rw [scanCandidates_none x rest t p hx]
      simp only [List.length_cons, List.length_nil]
      rw [if_neg (by omega)]
      exact ih hrest p

/-- Shape of every emitted group: a non-empty list of matches behind the
anchor, each match within the threshold of the anchor. -/
theorem findDupAux_group_shape :
    ∀ (l : List ImageInfo) (t : Nat) (p : List String),
      ∀ g ∈ findDupAux l t p,
        ∃ a ms, g.items = a :: ms ∧ ms ≠ [] ∧
          ∀ m ∈ ms, a.hash.dist m.hash < t := by
  intro l
  induction l with
  | nil => intro t p g hg; simp [findDupAux] at hg
  | cons image rest ih =>
    intro t p g hg
    simp only [findDupAux] at hg
    split at hg
    · exact ih t p g hg
    · split at hg
      · rename_i hlen
        rcases List.mem_cons.mp hg with h | h
        · subst h
          refine ⟨image, (scanCandidates image rest t p).1, rfl, ?_, ?_⟩
          · intro hnil
            rw [hnil] at hlen
            simp at hlen
          · exact fun m hm =>
              (scanCandidates_spec image rest t p _ _ rfl).1 m hm
        · exact ih t _ g h
      · exact ih t _ g hg

/-- Global partition invariant: when the input paths are pairwise distinct,
the paths of all records assigned to some group are pairwise distinct and
avoid the initially processed paths. -/
theorem findDupAux_nodup :
    ∀ (l : List ImageInfo) (t : Nat),
      (l.map (fun r => r.path)).Nodup →
      ∀ p : List String,
        (((findDupAux l t p).flatMap (fun g => g.items)).map
            (fun r => r.path)).Nodup ∧
        ∀ x ∈ ((findDupAux l t p).flatMap (fun g => g.items)).map
            (fun r => r.path), x ∉ p := by
  intro l
  induction l with
  | nil => intro t _ p; simp [findDupAux]
  | cons image rest ih =>
    intro t hnd p
    rw [List.map_cons, List.nodup_cons] at hnd
    obtain ⟨himg, hrest⟩ := hnd
    simp only [findDupAux]
    split
    · rename_i hin
      exact ih t hrest p
    · rename_i hin
      obtain ⟨hd, hsub, hnp, hiff⟩ :=
        scanCandidates_spec image rest t p _ _ rfl
      have hpsub : p ⊆ (scanCandidates image rest t p).2 :=
        fun x hx => (hiff x).mpr (Or.inl hx)
      split
      · rename_i hlen
        obtain ⟨tlnd, tldisj⟩ :=
          ih t hrest (image.path :: (scanCandidates image rest t p).2)
        have hmsub : (scanCandidates image rest t p).1.map (fun r => r.path) ⊆
            rest.map (fun r => r.path) :=
          (hsub.map (fun r => r.path)).subset
        constructor
        · simp only [List.flatMap_cons, List.map_append, List.map_cons,
            List.cons_append]
          rw [List.nodup_cons, List.mem_append, List.nodup_append]
          refine ⟨?_, ?_, tlnd, ?_⟩
          · rintro (hx | hx)
            · exact himg (hmsub hx)
            · exact tldisj _ hx (List.mem_cons_self _ _)
          · exact ((hsub.map (fun r => r.path)).nodup hrest)
          · intro x hx hx'
            exact tldisj x hx'
              (List.mem_cons_of_mem _
                ((hiff x).mpr (Or.inr hx)))
        · simp only [List.flatMap_cons, List.map_append, List.map_cons,
            List.cons_append, List.mem_cons, List.mem_append]
          rintro x (hx | hx | hx)
          · subst hx; exact hin
          · rcases List.mem_map.mp hx with ⟨m, hm, hmx⟩
            subst hmx; exact hnp m hm
          · intro hxp
            exact tldisj x hx (List.mem_cons_of_mem _ (hpsub hxp))
      · rename_i hlen
        obtain ⟨tlnd, tldisj⟩ := ih t hrest (scanCandidates image rest t p).2
        exact ⟨tlnd, fun x hx hxp => tldisj x hx (hpsub hxp)⟩

/- ### Claim theorems -/

/-- C1: every non-anchor member of a returned group lies at Hamming
distance strictly below the threshold from the group's anchor (its first
member). -/
theorem find_duplicates_anchor_dist
    (images : List ImageInfo) (t : Nat) (g : DuplicatesGroup)
    (hg : g ∈ find_duplicates images t)
    (a : ImageInfo) (ms : List ImageInfo) (hitems : g.items = a :: ms)
    (m : ImageInfo) (hm : m ∈ ms) :
    a.hash.dist m.hash < t := by
  obtain ⟨a', ms', hitems', _, hdist⟩ :=
    findDupAux_group_shape images t [] g hg
  rw [hitems] at hitems'
  injection hitems' with h1 h2
  subst h1; subst h2
  exact hdist m hm

/-- C2: every group returned by `find_duplicates` has at least two
members. -/
theorem find_duplicates_group_size
    (images : List ImageInfo) (t : Nat) (g : DuplicatesGroup)
    (hg : g ∈ find_duplicates images t) :
    2 ≤ g.items.length := by
  obtain ⟨a, ms, hitems, hne, _⟩ := findDupAux_group_shape images t [] g hg
  rw [hitems]
  cases ms with
  | nil => exact absurd rfl hne
  | cons m ms => simp [Nat.succ_le_succ]

/-- C3: when the input records have pairwise-distinct paths, every record
occurs at most once across all returned groups — it lies in at most one
group and at most once inside that group. -/
theorem find_duplicates_partition
    (images : List ImageInfo) (t : Nat)
    (hnd : (images.map (fun r => r.path)).Nodup)
    (r : ImageInfo) :
    ((find_duplicates images t).flatMap (fun g => g.items)).count r ≤ 1 := by
  have h := (findDupAux_nodup images t hnd []).1
  have : ((find_duplicates images t).flatMap (fun g => g.items)).Nodup :=
    List.Nodup.of_map _ h
  exact List.nodup_iff_count_le_one.mp this r

/-- Witness for C1 at a concrete input: the two identical records form one
group and the sole non-anchor member is within threshold 1 of the anchor. -/
theorem find_duplicates_anchor_dist_witness :
    (⟨[w1, w2]⟩ : DuplicatesGroup) ∈ find_duplicates [w1, w2] 1 ∧
      ImageHash.dist w1.hash w2.hash < 1 :=
  ⟨by decide,
    find_duplicates_anchor_dist [w1, w2] 1 ⟨[w1, w2]⟩ (by decide)
      w1 [w2] rfl w2 (by simp)⟩

/-- Witness for C2 at a concrete input. -/
theorem find_duplicates_group_size_witness :
    (⟨[w1, w2]⟩ : DuplicatesGroup) ∈ find_duplicates [w1, w2] 1 ∧
      2 ≤ (DuplicatesGroup.mk [w1, w2]).items.length :=
  ⟨by decide,
    find_duplicates_group_size [w1, w2] 1 ⟨[w1, w2]⟩ (by decide)⟩

/-- Witness for C3 at a concrete input. -/
theorem find_duplicates_partition_witness :
    (([w1, w2].map (fun r => r.path)).Nodup : Prop) ∧
      ((find_duplicates [w1, w2] 1).flatMap (fun g => g.items)).count w1 ≤ 1 :=
  ⟨by decide, find_duplicates_partition [w1, w2] 1 (by decide) w1⟩

/- ### C4: threshold monotonicity -/

/-- Counterexample to C4: on `[mA, mB, mC, mD]` threshold 2 assigns four
records (groups `[mA, mB]` and `[mC, mD]`), but threshold 3 assigns only
three: anchor `mA` absorbs `mC`, leaving `mD` alone to be discarded.  So
the total assigned count is not monotone in the threshold. -/
theorem find_duplicates_threshold_mono_cex :
    2 ≤ 3 ∧
      totalAssigned (find_duplicates [mA, mB, mC, mD] 3) <
        totalAssigned (find_duplicates [mA, mB, mC, mD] 2) := by decide

/-- Auxiliary for the amended C4: two scans of the same candidate list with
thresholds `t1 ≤ t2` from processed sets that agree on the candidates'
paths produce matches related by the sublist order. -/
theorem scanCandidates_mono_aux (a : ImageInfo) (t1 t2 : Nat) (ht : t1 ≤ t2) :
    ∀ (rest : List ImageInfo),
      (rest.map (fun r => r.path)).Nodup →
      ∀ (q1 q2 : List String),
        (∀ x ∈ rest, (x.path ∈ q1 ↔ x.path ∈ q2)) →
        List.Sublist (scanCandidates a rest t1 q1).1
          (scanCandidates a rest t2 q2).1 := by
  intro rest
  induction rest with
  | nil => intro _ q1 q2 _; simp [scanCandidates]
  | cons o rest ih =>
    intro hnd q1 q2 hiff
    rw [List.map_cons, List.nodup_cons] at hnd
    obtain ⟨hop, hndr⟩ := hnd
    have hiffr : ∀ x ∈ rest, (x.path ∈ q1 ↔ x.path ∈ q2) :=
      fun x hx => hiff x (List.mem_cons_of_mem _ hx)
    simp only [scanCandidates]
    by_cases hmem : o.path ∈ q1
    · rw [if_pos hmem, if_pos ((hiff o (List.mem_cons_self _ _)).mp hmem)]
      exact ih hndr q1 q2 hiffr
    · have hmem2 : o.path ∉ q2 :=
        fun h => hmem ((hiff o (List.mem_cons_self _ _)).mpr h)
      rw [if_neg hmem, if_neg hmem2]
      by_cases hd1 : a.hash.dist o.hash < t1
      · rw [if_pos hd1, if_pos (Nat.lt_of_lt_of_le hd1 ht)]
        refine List.Sublist.cons₂ o (ih hndr _ _ ?_)
        intro x hx
        have hxo : x.path ≠ o.path := by
          intro h
          exact hop (h ▸ List.mem_map_of_mem (fun r => r.path) hx)
        simp only [List.mem_cons]
        rw [or_iff_right hxo, or_iff_right hxo]
        exact hiffr x hx
      · rw [if_neg hd1]
        by_cases hd2 : a.hash.dist o.hash < t2
        · rw [if_pos hd2]
          refine List.Sublist.cons o (ih hndr _ _ ?_)
          intro x hx
          have hxo : x.path ≠ o.path := by
            intro h
            exact hop (h ▸ List.mem_map_of_mem (fun r => r.path) hx)
          rw [List.mem_cons, or_iff_right hxo]
          exact hiffr x hx
        · rw [if_neg hd2]
          exact ih hndr q1 q2 hiffr

/-- Amended C4: monotonicity holds per anchor scan, not globally.  For one
anchor over candidates with pairwise-distinct paths and a fixed processed
set, every record matched with threshold `t1 ≤ t2` is also matched with
threshold `t2`, in the same order (a sublist). -/
theorem scanCandidates_threshold_mono
    (a : ImageInfo) (rest : List ImageInfo) (t1 t2 : Nat) (p : List String)
    (ht : t1 ≤ t2) (hnd : (rest.map (fun r => r.path)).Nodup) :
    List.Sublist (scanCandidates a rest t1 p).1
      (scanCandidates a rest t2 p).1 :=
  scanCandidates_mono_aux a t1 t2 ht rest hnd p p (fun _ _ => Iff.rfl)

/-- Witness for the amended C4 at a concrete input. -/
theorem scanCandidates_threshold_mono_witness :
    1 ≤ 2 ∧ (([w2].map (fun r => r.path)).Nodup : Prop) ∧
      List.Sublist (scanCandidates w1 [w2] 1 []).1
        (scanCandidates w1 [w2] 2 []).1 :=
  ⟨by decide, by decide,
    scanCandidates_threshold_mono w1 [w2] 1 2 [] (by decide) (by decide)⟩

/- ### Single-step unfolding lemmas for the two loops -/

/-- Scan step: an already-processed candidate is skipped. -/
theorem scanCandidates_cons_skip {image o : ImageInfo} {rest : List ImageInfo}
    {t : Nat} {p : List String} (h : o.path ∈ p) :
    scanCandidates image (o :: rest) t p = scanCandidates image rest t p := by
  simp only [scanCandidates]
  rw [if_pos h]

/-- Scan step: an unprocessed candidate within the threshold is matched. -/
theorem scanCandidates_cons_match {image o : ImageInfo} {rest : List ImageInfo}
    {t : Nat} {p : List String} (h1 : o.path ∉ p)
    (h2 : image.hash.dist o.hash < t) :
    scanCandidates image (o :: rest) t p =
      (o :: (scanCandidates image rest t (o.path :: p)).1,
        (scanCandidates image rest t (o.path :: p)).2) := by
  simp only [scanCandidates]
  rw [if_neg h1, if_pos h2]

/-- Scan step: an unprocessed candidate at or beyond the threshold is
passed over. -/
theorem scanCandidates_cons_far {image o : ImageInfo} {rest : List ImageInfo}
    {t : Nat} {p : List String} (h1 : o.path ∉ p)
    (h2 : ¬ image.hash.dist o.hash < t) :
    scanCandidates image (o :: rest) t p = scanCandidates image rest t p := by
  simp only [scanCandidates]
  rw [if_neg h1, if_neg h2]

/-- Outer step: an already-processed record is skipped as anchor. -/
theorem findDupAux_cons_skip {image : ImageInfo} {rest : List ImageInfo}
    {t : Nat} {p : List String} (h : image.path ∈ p) :
    findDupAux (image :: rest) t p = findDupAux rest t p := by
  simp only [findDupAux]
  rw [if_pos h]

/-- Outer step: an anchor whose scan matched something emits its group and
is marked processed. -/
theorem findDupAux_cons_emit {image : ImageInfo} {rest : List ImageInfo}
    {t : Nat} {p : List String} (h1 : image.path ∉ p)
    (h2 : (scanCandidates image rest t p).1 ≠ []) :
    findDupAux (image :: rest) t p =
      ⟨image :: (scanCandidates image rest t p).1⟩ ::
        findDupAux rest t (image.path :: (scanCandidates image rest t p).2) := by
  simp only [findDupAux]
  rw [if_neg h1, if_pos ?_]
  cases hms : (scanCandidates image rest t p).1 with
  | nil => exact absurd hms h2
  | cons m ms => simp

/-- Outer step: an anchor whose scan matched nothing is discarded. -/
theorem findDupAux_cons_drop {image : ImageInfo} {rest : List ImageInfo}
    {t : Nat} {p : List String} (h1 : image.path ∉ p)
    (h2 : (scanCandidates image rest t p).1 = []) :
    findDupAux (image :: rest) t p =
      findDupAux rest t (scanCandidates image rest t p).2 := by
  simp only [findDupAux]
  rw [if_neg h1, if_neg ?_]
  rw [h2]
  simp

/- ### C5: the concrete five-record scenario -/

/-- C5: whenever five records have `dist(hash1, hash3) = 0` and every other
pairwise distance at least 10, grouping at threshold 10 yields exactly the
one group `[r1, r3]`; records 2, 4 and 5 appear in no group. -/
theorem find_duplicates_five_records
    (r1 r2 r3 r4 r5 : ImageInfo)
    (h13 : r1.hash.dist r3.hash = 0)
    (h12 : 10 ≤ r1.hash.dist r2.hash) (h14 : 10 ≤ r1.hash.dist r4.hash)
    (h15 : 10 ≤ r1.hash.dist r5.hash) (h23 : 10 ≤ r2.hash.dist r3.hash)
    (h24 : 10 ≤ r2.hash.dist r4.hash) (h25 : 10 ≤ r2.hash.dist r5.hash)
    (h34 : 10 ≤ r3.hash.dist r4.hash) (h35 : 10 ≤ r3.hash.dist r5.hash)
    (h45 : 10 ≤ r4.hash.dist r5.hash) :
    find_duplicates [r1, r2, r3, r4, r5] 10 = [⟨[r1, r3]⟩] := by
  have hd12 : ¬ r1.hash.dist r2.hash < 10 := Nat.not_lt.mpr h12
  have hd13 : r1.hash.dist r3.hash < 10 := by omega
  have hscan45 : scanCandidates r1 [r4, r5] 10 [r3.path] = ([], [r3.path]) := by
    refine scanCandidates_none r1 [r4, r5] 10 [r3.path] ?_
    intro x hx
    rcases List.mem_cons.mp hx with h | h
    · subst h; exact h14
    · rcases List.mem_cons.mp h with h | h
      · subst h; exact h15
      · simp at h
  have hscan : scanCandidates r1 [r2, r3, r4, r5] 10 [] = ([r3], [r3.path]) := by
    rw [scanCandidates_cons_far (by simp) hd12,
      scanCandidates_cons_match (by simp) hd13, hscan45]
  have hrestnone :
      findDupAux [r2, r3, r4, r5] 10 (r1.path :: [r3.path]) = [] := by
    refine findDupAux_none 10 [r2, r3, r4, r5] ?_ _
    refine List.Pairwise.cons ?_ (List.Pairwise.cons ?_
      (List.Pairwise.cons ?_ (List.Pairwise.cons ?_ List.Pairwise.nil)))
    · intro x hx
      rcases List.mem_cons.mp hx with h | hx
      · subst h; exact h23
      rcases List.mem_cons.mp hx with h | hx
      · subst h; exact h24
      rcases List.mem_cons.mp hx with h | hx
      · subst h; exact h25
      · simp at hx
    · intro x hx
      rcases List.mem_cons.mp hx with h | hx
      · subst h; exact h34
      rcases List.mem_cons.mp hx with h | hx
      · subst h; exact h35
      · simp at hx
    · intro x hx
      rcases List.mem_cons.mp hx with h | hx
      · subst h; exact h45
      · simp at hx
    · intro x hx; simp at hx
  show findDupAux [r1, r2, r3, r4, r5] 10 [] = [⟨[r1, r3]⟩]
  rw [findDupAux_cons_emit (by simp) (by rw [hscan]; simp), hscan]
  rw [show ([r3], [r3.path]).1 = [r3] from rfl,
    show ([r3], [r3.path]).2 = [r3.path] from rfl, hrestnone]

/-- Witness for C5 at a concrete input. -/
theorem find_duplicates_five_records_witness :
    cr1.hash.dist cr3.hash = 0 ∧ 10 ≤ cr1.hash.dist cr2.hash ∧
      find_duplicates [cr1, cr2, cr3, cr4, cr5] 10 = [⟨[cr1, cr3]⟩] :=
  ⟨by decide, by decide,
    find_duplicates_five_records cr1 cr2 cr3 cr4 cr5 (by decide) (by decide)
      (by decide) (by decide) (by decide) (by decide) (by decide) (by decide)
      (by decide) (by decide)⟩

/-- C10: with threshold 0 the strict comparison `dist < 0` never holds, so
`find_duplicates` returns no groups on any input, identical fingerprints
included. -/
theorem find_duplicates_threshold_zero (images : List ImageInfo) :
    find_duplicates images 0 = [] := by
  have hpw : images.Pairwise (fun a b => 0 ≤ a.hash.dist b.hash) := by
    induction images with
    | nil => exact List.Pairwise.nil
    | cons x rest ih => exact List.Pairwise.cons (fun _ _ => Nat.zero_le _) ih
  exact findDupAux_none 0 images hpw []

/- ### C6: discarded anchors are never revisited -/

/-- The instrumented scan computes the same matches and processed set as
the plain one. -/
theorem scanCandidatesT_agree (image : ImageInfo) :
    ∀ (rest : List ImageInfo) (t : Nat) (p : List String),
      (scanCandidatesT image rest t p).1 = (scanCandidates image rest t p).1 ∧
      (scanCandidatesT image rest t p).2.1 = (scanCandidates image rest t p).2 := by
  intro rest
  induction rest with
  | nil => intro t p; simp [scanCandidatesT, scanCandidates]
  | cons o rest ih =>
    intro t p
    simp only [scanCandidatesT, scanCandidates]
    by_cases h1 : o.path ∈ p
    · rw [if_pos h1, if_pos h1]
      exact ih t p
    · rw [if_neg h1, if_neg h1]
      by_cases h2 : image.hash.dist o.hash < t
      · rw [if_pos h2, if_pos h2]
        refine ⟨?_, (ih t (o.path :: p)).2⟩
        show o :: (scanCandidatesT image rest t (o.path :: p)).1 =
          o :: (scanCandidates image rest t (o.path :: p)).1
        rw [(ih t (o.path :: p)).1]
      · rw [if_neg h2, if_neg h2]
        exact ih t p

/-- Every event emitted by an instrumented scan is a candidate examination
by this anchor of one of the scanned records. -/
theorem scanCandidatesT_events (image : ImageInfo) :
    ∀ (rest : List ImageInfo) (t : Nat) (p : List String),
      ∀ e ∈ (scanCandidatesT image rest t p).2.2,
        ∃ o ∈ rest, e = Event.candidateExam image.path o.path := by
  intro rest
  induction rest with
  | nil => intro t p e he; simp [scanCandidatesT] at he
  | cons o rest ih =>
    intro t p e he
    simp only [scanCandidatesT] at he
    by_cases h1 : o.path ∈ p
    · rw [if_pos h1] at he
      rcases List.mem_cons.mp he with h | h
      · exact ⟨o, List.mem_cons_self _ _, h⟩
      · obtain ⟨o', ho', he'⟩ := ih t p e h
        exact ⟨o', List.mem_cons_of_mem _ ho', he'⟩
    · rw [if_neg h1] at he
      by_cases h2 : image.hash.dist o.hash < t
      · rw [if_pos h2] at he
        rcases List.mem_cons.mp he with h | h
        · exact ⟨o, List.mem_cons_self _ _, h⟩
        · obtain ⟨o', ho', he'⟩ := ih t (o.path :: p) e h
          exact ⟨o', List.mem_cons_of_mem _ ho', he'⟩
      · rw [if_neg h2] at he
        rcases List.mem_cons.mp he with h | h
        · exact ⟨o, List.mem_cons_self _ _, h⟩
        · obtain ⟨o', ho', he'⟩ := ih t p e h
          exact ⟨o', List.mem_cons_of_mem _ ho', he'⟩

/-- The instrumented outer loop returns the same groups as the plain one. -/
theorem findDupAuxT_agree :
    ∀ (l : List ImageInfo) (t : Nat) (p : List String),
      (findDupAuxT l t p).1 = findDupAux l t p := by
  intro l
  induction l with
  | nil => intro t p; simp [findDupAuxT, findDupAux]
  | cons image rest ih =>
    intro t p
    simp only [findDupAuxT, findDupAux]
    rw [(scanCandidatesT_agree image rest t p).1,
      (scanCandidatesT_agree image rest t p).2]
    by_cases h1 : image.path ∈ p
    · rw [if_pos h1, if_pos h1]
      exact ih t p
    · rw [if_neg h1, if_neg h1]
      by_cases h2 : (image :: (scanCandidates image rest t p).1).length > 1
      · rw [if_pos h2, if_pos h2]
        show _ :: (findDupAuxT rest t _).1 = _
        rw [ih t (image.path :: (scanCandidates image rest t p).2)]
      · rw [if_neg h2, if_neg h2]
        exact ih t (scanCandidates image rest t p).2

/-- Every member of a returned group is one of the scanned records. -/
theorem findDupAux_member_paths :
    ∀ (l : List ImageInfo) (t : Nat) (p : List String),
      ∀ g ∈ findDupAux l t p, ∀ m ∈ g.items,
        m.path ∈ l.map (fun r => r.path) := by
  intro l
  induction l with
  | nil => intro t p g hg; simp [findDupAux] at hg
  | cons image rest ih =>
    intro t p g hg m hm
    simp only [findDupAux] at hg
    split at hg
    · exact List.mem_cons_of_mem _ (ih t p g hg m hm)
    · split at hg
      · rcases List.mem_cons.mp hg with h | h
        · subst h
          rcases List.mem_cons.mp hm with h | h
          · subst h; exact List.mem_cons_self _ _
          · have hsub := (scanCandidates_spec image rest t p _ _ rfl).2.1
            exact List.mem_cons_of_mem _
              (List.mem_map_of_mem _ (hsub.subset h))
        · exact List.mem_cons_of_mem _ (ih t _ g h m hm)
      · exact List.mem_cons_of_mem _ (ih t _ g hg m hm)

/-- Every anchor-visit event names one of the scanned records, and one
whose path was not yet processed when the loop started. -/
theorem findDupAuxT_anchor_events :
    ∀ (l : List ImageInfo) (t : Nat) (p : List String),
      ∀ q d, Event.anchorVisit q d ∈ (findDupAuxT l t p).2 →
        q ∈ l.map (fun r => r.path) ∧ q ∉ p := by
  intro l
  induction l with
  | nil => intro t p q d hq; simp [findDupAuxT] at hq
  | cons image rest ih =>
    intro t p q d hq
    have hpsub : p ⊆ (scanCandidatesT image rest t p).2.1 := by
      rw [(scanCandidatesT_agree image rest t p).2]
      intro x hx
      exact ((scanCandidates_spec image rest t p _ _ rfl).2.2.2 x).mpr (Or.inl hx)
    simp only [findDupAuxT] at hq
    split at hq
    · obtain ⟨h1, h2⟩ := ih t p q d hq
      exact ⟨List.mem_cons_of_mem _ h1, h2⟩
    · rename_i hin
      split at hq
      · dsimp only at hq
        rcases List.mem_cons.mp hq with h | h
        · injection h with h1 h2
          subst h1
          exact ⟨List.mem_cons_self _ _, hin⟩
        · rcases List.mem_append.mp h with h | h
          · obtain ⟨o, _, he⟩ := scanCandidatesT_events image rest t p _ h
            exact absurd he (by simp)
          · obtain ⟨h1, h2⟩ := ih t _ q d h
            refine ⟨List.mem_cons_of_mem _ h1, fun hp => h2 ?_⟩
            exact List.mem_cons_of_mem _ (hpsub hp)
      · dsimp only at hq
        rcases List.mem_cons.mp hq with h | h
        · injection h with h1 h2
          subst h1
          exact ⟨List.mem_cons_self _ _, hin⟩
        · rcases List.mem_append.mp h with h | h
          · obtain ⟨o, _, he⟩ := scanCandidatesT_events image rest t p _ h
            exact absurd he (by simp)
          · obtain ⟨h1, h2⟩ := ih t _ q d h
            exact ⟨List.mem_cons_of_mem _ h1, fun hp => h2 (hpsub hp)⟩

/-- Every candidate-examination event names one of the scanned records. -/
theorem findDupAuxT_cand_events :
    ∀ (l : List ImageInfo) (t : Nat) (p : List String),
      ∀ a x, Event.candidateExam a x ∈ (findDupAuxT l t p).2 →
        x ∈ l.map (fun r => r.path) := by
  intro l
  induction l with
  | nil => intro t p a x hx; simp [findDupAuxT] at hx
  | cons image rest ih =>
    intro t p a x hx
    simp only [findDupAuxT] at hx
    split at hx
    · exact List.mem_cons_of_mem _ (ih t p a x hx)
    · split at hx
      · dsimp only at hx
        rcases List.mem_cons.mp hx with h | h
        · exact absurd h (by simp)
        · rcases List.mem_append.mp h with h | h
          · obtain ⟨o, ho, he⟩ := scanCandidatesT_events image rest t p _ h
            injection he with h1 h2
            subst h2
            exact List.mem_cons_of_mem _ (List.mem_map_of_mem _ ho)
          · exact List.mem_cons_of_mem _ (ih t _ a x h)
      · dsimp only at hx
        rcases List.mem_cons.mp hx with h | h
        · exact absurd h (by simp)
        · rcases List.mem_append.mp h with h | h
          · obtain ⟨o, ho, he⟩ := scanCandidatesT_events image rest t p _ h
            injection he with h1 h2
            subst h2
            exact List.mem_cons_of_mem _ (List.mem_map_of_mem _ ho)
          · exact List.mem_cons_of_mem _ (ih t _ a x h)

/-- Splitting an appended list at a distinguished element that does not
occur in the left part: the split lies in the right part. -/
theorem append_factor {α : Type} {a b pre post : List α} {x : α}
    (h : a ++ b = pre ++ x :: post) (hx : x ∉ a) :
    ∃ mid, b = mid ++ x :: post ∧ pre = a ++ mid := by
  rcases List.append_eq_append_iff.mp h with ⟨a', ha1, ha2⟩ | ⟨c', hc1, hc2⟩
  · exact ⟨a', ha2, ha1⟩
  · cases c' with
    | nil =>
      refine ⟨[], ?_, ?_⟩
      · simpa using hc2.symm
      · simpa using hc1.symm
    | cons y c'' =>
      injection hc2 with hxy _
      exfalso
      apply hx
      rw [hc1, hxy]
      exact List.mem_append.mpr (Or.inr (List.mem_cons_self _ _))

/-- Generalisation of C6 over the processed set: if the run's trace shows
an anchor with path `q` being visited and discarded, then no later event
examines `q` as a candidate, and `q` is in none of the returned groups. -/
theorem findDupAuxT_discarded_aux :
    ∀ (l : List ImageInfo) (t : Nat) (p : List String),
      (l.map (fun r => r.path)).Nodup →
      ∀ (q : String) (ev1 ev2 : List Event),
        (findDupAuxT l t p).2 = ev1 ++ Event.anchorVisit q true :: ev2 →
        (∀ a x, Event.candidateExam a x ∈ ev2 → x ≠ q) ∧
        (∀ g ∈ (findDupAuxT l t p).1, q ∉ g.items.map (fun r => r.path)) := by
  intro l
  induction l with
  | nil =>
    intro t p _ q ev1 ev2 hsplit
    simp only [findDupAuxT] at hsplit
    exact absurd hsplit (by cases ev1 <;> simp)
  | cons image rest ih =>
    intro t p hnd q ev1 ev2 hsplit
    rw [List.map_cons, List.nodup_cons] at hnd
    obtain ⟨himg, hndr⟩ := hnd
    have hagree := scanCandidatesT_agree image rest t p
    have hpsub : p ⊆ (scanCandidatesT image rest t p).2.1 := by
      rw [hagree.2]
      intro x hx
      exact ((scanCandidates_spec image rest t p _ _ rfl).2.2.2 x).mpr (Or.inl hx)
    have hmsub : ∀ m ∈ (scanCandidatesT image rest t p).1,
        m.path ∈ (scanCandidatesT image rest t p).2.1 := by
      rw [hagree.1, hagree.2]
      intro m hm
      exact ((scanCandidates_spec image rest t p _ _ rfl).2.2.2 m.path).mpr
        (Or.inr (List.mem_map_of_mem _ hm))
    have hscannotin : Event.anchorVisit q true ∉
        (scanCandidatesT image rest t p).2.2 := by
      intro hmem
      obtain ⟨o, _, he⟩ := scanCandidatesT_events image rest t p _ hmem
      exact absurd he (by simp)
    simp only [findDupAuxT] at hsplit ⊢
    by_cases h1 : image.path ∈ p
    · rw [if_pos h1] at hsplit ⊢
      exact ih t p hndr q ev1 ev2 hsplit
    · rw [if_neg h1] at hsplit ⊢
      by_cases h2 : (image :: (scanCandidatesT image rest t p).1).length > 1
      · rw [if_pos h2] at hsplit ⊢
        dsimp only at hsplit ⊢
        cases ev1 with
        | nil => simp at hsplit
        | cons e ev1' =>
          rw [List.cons_append] at hsplit
          injection hsplit with he htail
          obtain ⟨mid, hrestEv, _⟩ := append_factor htail hscannotin
          obtain ⟨hpart1, hpart2⟩ :=
            ih t (image.path :: (scanCandidatesT image rest t p).2.1) hndr
              q mid ev2 hrestEv
          refine ⟨hpart1, ?_⟩
          intro g hg
          have hqev : Event.anchorVisit q true ∈
              (findDupAuxT rest t
                (image.path :: (scanCandidatesT image rest t p).2.1)).2 := by
            rw [hrestEv]
            exact List.mem_append.mpr (Or.inr (List.mem_cons_self _ _))
          obtain ⟨hqrest, hqnp⟩ :=
            findDupAuxT_anchor_events rest t _ q true hqev
          rcases List.mem_cons.mp hg with hg | hg
          · subst hg
            simp only [List.map_cons, List.mem_cons]
            rintro (h | h)
            · exact hqnp (h ▸ List.mem_cons_self _ _)
            · rcases List.mem_map.mp h with ⟨m, hm, hmq⟩
              exact hqnp (hmq ▸ List.mem_cons_of_mem _ (hmsub m hm))
          · exact hpart2 g hg
      · rw [if_neg h2] at hsplit ⊢
        dsimp only at hsplit ⊢
        cases ev1 with
        | nil =>
          rw [List.nil_append] at hsplit
          injection hsplit with he htail
          injection he with hq _
          subst hq
          constructor
          · intro a x hx
            rw [← htail] at hx
            rcases List.mem_append.mp hx with h | h
            · obtain ⟨o, ho, heq⟩ := scanCandidatesT_events image rest t p _ h
              injection heq with _ h2
              subst h2
              intro hxq
              exact himg (hxq ▸ List.mem_map_of_mem _ ho)
            · intro hxq
              subst hxq
              exact himg (findDupAuxT_cand_events rest t _ a _ h)
          · intro g hg
            have hg' : g ∈ findDupAux rest t (scanCandidatesT image rest t p).2.1 := by
              rw [← findDupAuxT_agree]
              exact hg
            intro hq
            rcases List.mem_map.mp hq with ⟨m, hm, hmq⟩
            exact himg (hmq ▸ findDupAux_member_paths rest t _ g hg' m hm)
        | cons e ev1' =>
          rw [List.cons_append] at hsplit
          injection hsplit with he htail
          obtain ⟨mid, hrestEv, _⟩ := append_factor htail hscannotin
          exact ih t (scanCandidatesT image rest t p).2.1 hndr q mid ev2 hrestEv

/-- C6: in a run over records with pairwise-distinct paths, once a record
has been visited as an anchor and discarded (event `anchorVisit q true`),
no later event examines it as a candidate in any anchor's scan, and it
appears in no returned group. -/
theorem find_duplicates_discarded_anchor
    (images : List ImageInfo) (t : Nat)
    (hnd : (images.map (fun r => r.path)).Nodup)
    (q : String) (ev1 ev2 : List Event)
    (hsplit : (find_duplicatesT images t).2 =
      ev1 ++ Event.anchorVisit q true :: ev2) :
    (∀ a x, Event.candidateExam a x ∈ ev2 → x ≠ q) ∧
    (∀ g ∈ find_duplicates images t, q ∉ g.items.map (fun r => r.path)) := by
  obtain ⟨h1, h2⟩ := findDupAuxT_discarded_aux images t [] hnd q ev1 ev2 hsplit
  refine ⟨h1, ?_⟩
  intro g hg
  refine h2 g ?_
  rw [show (findDupAuxT images t []).1 = findDupAux images t [] from
    findDupAuxT_agree images t []]
  exact hg

/-- Witness for C6 at a concrete input: with `[mA, mD]` at threshold 1 both
anchors are discarded; instantiating the theorem at the first discarded
anchor `"a.png"`. -/
theorem find_duplicates_discarded_anchor_witness :
    (([mA, mD].map (fun r => r.path)).Nodup : Prop) ∧
      ((∀ a x, Event.candidateExam a x ∈
          [Event.candidateExam "a.png" "d.png",
            Event.anchorVisit "d.png" true] → x ≠ "a.png") ∧
        (∀ g ∈ find_duplicates [mA, mD] 1,
          "a.png" ∉ g.items.map (fun r => r.path))) :=
  ⟨by decide,
    find_duplicates_discarded_anchor [mA, mD] 1 (by decide) "a.png" []
      [Event.candidateExam "a.png" "d.png", Event.anchorVisit "d.png" true]
      (by decide)⟩

/- ### C7, C8: scanner error handling -/

/-- C7: when the input path is not a directory, `get_image_hashes` fails
with the invalid-directory error.  The equality holds for every entry list
and every hasher, so no entry is read, no image decoded and no fingerprint
produced before the failure. -/
theorem get_image_hashes_invalid_directory {α : Type}
    (d : FileSystemDir α) (dirPath : String) (hasher : α → ImageHash)
    (h : d.isDir = false) :
    get_image_hashes d dirPath hasher =
      Except.error (AppError.invalidDirectory dirPath) := by
  simp [get_image_hashes, h]

/-- Witness for C7 at a concrete input. -/
theorem get_image_hashes_invalid_directory_witness :
    (FileSystemDir.mk false [DirEntry.mk "x.png" (some 0)] :
        FileSystemDir Nat).isDir = false ∧
      get_image_hashes (FileSystemDir.mk false [DirEntry.mk "x.png" (some 0)])
          "dir" (fun _ => ([] : ImageHash)) =
        Except.error (AppError.invalidDirectory "dir") :=
  ⟨rfl,
    get_image_hashes_invalid_directory
      (FileSystemDir.mk false [DirEntry.mk "x.png" (some 0)]) "dir"
      (fun _ => ([] : ImageHash)) rfl⟩

/-- C8: an undecodable entry is silently dropped and never fails the run:
on a valid directory holding one decodable image and one non-image entry
the scan succeeds with exactly the one fingerprint, and on every valid
directory the scan returns successfully. -/
theorem get_image_hashes_skips_undecodable {α : Type}
    (d : FileSystemDir α) (dirPath : String) (hasher : α → ImageHash)
    (e1 e2 : DirEntry α) (img : α)
    (hdir : d.isDir = true) (hent : d.entries = [e1, e2])
    (h1 : e1.decoded = some img) (h2 : e2.decoded = none) :
    get_image_hashes d dirPath hasher =
      Except.ok [ImageInfo.mk e1.path (hasher img)] ∧
    ∀ (d' : FileSystemDir α), d'.isDir = true →
      ∃ l, get_image_hashes d' dirPath hasher = Except.ok l := by
  constructor
  · simp [get_image_hashes, hdir, hent, h1, h2]
  · intro d' hd'
    refine ⟨d'.entries.filterMap (fun e =>
      match e.decoded with
      | some img => some (ImageInfo.mk e.path (hasher img))
      | none => none), ?_⟩
    simp [get_image_hashes, hd']

/-- Witness for C8 at a concrete input. -/
theorem get_image_hashes_skips_undecodable_witness :
    (FileSystemDir.mk true
        [DirEntry.mk "ok.png" (some 7), DirEntry.mk "notes.txt" none] :
        FileSystemDir Nat).isDir = true ∧
      get_image_hashes
          (FileSystemDir.mk true
            [DirEntry.mk "ok.png" (some 7), DirEntry.mk "notes.txt" none])
          "dir" (fun _ => ([true] : ImageHash)) =
        Except.ok [ImageInfo.mk "ok.png" [true]] :=
  ⟨rfl,
    (get_image_hashes_skips_undecodable
      (FileSystemDir.mk true
        [DirEntry.mk "ok.png" (some 7), DirEntry.mk "notes.txt" none])
      "dir" (fun _ => ([true] : ImageHash))
      (DirEntry.mk "ok.png" (some 7)) (DirEntry.mk "notes.txt" none) 7
      rfl rfl rfl rfl).1⟩

/- ### C9: the report write is all-or-nothing -/

/-- C9: `save_results` serializes the whole report before touching
storage.  If serialization fails, the call errors out with no write
attempted and storage untouched; if the call succeeds, storage holds the
complete serialized report at the target path; if the call fails for any
reason, storage is exactly as before. -/
theorem save_results_all_or_nothing
    (serialize : DeduplicationReport → Option String)
    (report : DeduplicationReport) (writeOk : Bool) (store : Storage)
    (path : String) :
    (serialize report = none →
      save_results serialize report writeOk store path =
        (Except.error AppError.serialization, store, false)) ∧
    ((save_results serialize report writeOk store path).1 = Except.ok () →
      ∃ c, serialize report = some c ∧
        (save_results serialize report writeOk store path).2.1 =
          fsWrite store path c) ∧
    ((save_results serialize report writeOk store path).1 ≠ Except.ok () →
      (save_results serialize report writeOk store path).2.1 = store) := by
  cases hser : serialize report with
  | none =>
    refine ⟨fun _ => by simp [save_results, hser], ?_, ?_⟩
    · intro h
      have : (save_results serialize report writeOk store path).1 =
          Except.error AppError.serialization := by simp [save_results, hser]
      rw [this] at h
      exact absurd h (by simp)
    · intro _
      simp [save_results, hser]
  | some c =>
    cases writeOk with
    | true =>
      refine ⟨by simp [hser], ?_, ?_⟩
      · intro _
        refine ⟨c, rfl, ?_⟩
        simp [save_results, hser]
      · intro h
        exact absurd (show (save_results serialize report true store path).1 =
          Except.ok () by simp [save_results, hser]) h
    | false =>
      refine ⟨by simp [hser], ?_, ?_⟩
      · intro h
        have : (save_results serialize report false store path).1 =
            Except.error AppError.storageIO := by simp [save_results, hser]
        rw [this] at h
        exact absurd h (by simp)
      · intro _
        simp [save_results, hser]

/-- Witness for C9 at a concrete input: a failing serializer yields the
serialization error, no attempted write and unchanged (empty) storage. -/
theorem save_results_all_or_nothing_witness :
    save_results (fun _ => none) (DeduplicationReport.mk "d" [] 0) true []
        "report.json" =
      (Except.error AppError.serialization, [], false) :=
  (save_results_all_or_nothing (fun _ => none)
    (DeduplicationReport.mk "d" [] 0) true [] "report.json").1 rfl
